import Mathlib

/-!
Shallow embedding of the COVID-19 data-preparation pipeline
(`notebooks/prepares.py`, class `Preparedata`, and the `download_data`
duplicate in `notebooks/solution2_sho.py`).

A pandas `DataFrame` cell is modelled by `Cell` (a string, a rational
number, or a missing value `na`); a raw wide table by `Frame` (a list of
column headers plus a list of rows).  The time-series stages
(`transpose_to_ts`, `fix_bad_data`) work on columns of `Option ℚ`
(`none` = NaN).  Machine floats are modelled by `ℚ`: every value the
pipeline manipulates is an integer count, a linear interpolation of
integer counts, or a rational midpoint of those, all exactly
representable.
-/

/-- Cell of a raw pandas table: a string, a numeric value, or NaN. -/
inductive Cell where
  | str (s : String)
  | num (q : ℚ)
  | na
deriving DecidableEq, Repr

/-- A raw wide table: column headers plus rows of cells
(`df.columns` and the row data of a pandas DataFrame). -/
structure Frame where
  cols : List String
  rows : List (List Cell)
deriving DecidableEq, Repr

/-- The module-level constant `REPLACE_AREA` of `prepares.py`. -/
def REPLACE_AREA : List (String × String) :=
  [("Korea, South", "South Korea"),
   ("Taiwan*", "Taiwan"),
   ("Burma", "Myanmar"),
   ("Holy See", "Vatican City"),
   ("Diamond Princess", "Cruise Ship"),
   ("Grand Princess", "Cruise Ship"),
   ("MS Zaandam", "Cruise Ship")]

/-- The URL template `DOWNLOAD_URL` of `prepares.py`; the two Python
format slots are the two brace pairs. -/
def DOWNLOAD_URL : String :=
  "https://raw.githubusercontent.com/CSSEGISandData/COVID-19/" ++
  "master/csse_covid_19_data/csse_covid_19_time_series/" ++
  "time_series_covid19_\x7b\x7d_\x7b\x7d.csv"

/-- Split a character list at every occurrence of the two-character
slot `\x7b\x7d`, keeping the text between slots. -/
def splitSlots : List Char → List (List Char)
  | [] => [[]]
  | [a] => [[a]]
  | a :: b :: rest =>
      if a = '\x7b' ∧ b = '\x7d' then [] :: splitSlots rest
      else
        match splitSlots (b :: rest) with
        | [] => [[a]]
        | p :: ps => (a :: p) :: ps

/-- Python `template.format(a, b)` for a template with exactly two
brace-pair slots. -/
def pyFormat2 (t a b : String) : String :=
  match (splitSlots t.data).map String.mk with
  | [p0, p1, p2] => p0 ++ a ++ p1 ++ b ++ p2
  | _ => t

/-- URL built by `Preparedata.download_data` (the method's body up to the
`pd.read_csv` call, which is the network side effect):
`group = 'US' if group == 'usa' else 'global'`,
`kind = 'confirmed' if kind == 'cases' else 'deaths'`,
`DOWNLOAD_URL.format(kind, group)`. -/
def download_data_url (group kind : String) : String :=
  let group := if group == "usa" then "US" else "global"
  let kind := if kind == "cases" then "confirmed" else "deaths"
  pyFormat2 DOWNLOAD_URL kind group

/-- The label allow-list of `select_columns`
(`labels = ['Country/Region', 'Province_State']`). -/
def idLabels : List String := ["Country/Region", "Province_State"]

/-- Split a character list at every occurrence of a separator character,
as Python `s.split(sep)` does: `n` separators yield `n + 1` parts. -/
def splitParts (sep : Char) : List Char → List (List Char)
  | [] => [[]]
  | c :: cs =>
      if c = sep then [] :: splitParts sep cs
      else
        match splitParts sep cs with
        | [] => [[c]]
        | p :: ps => (c :: p) :: ps

/-- Number of occurrences of `'/'` in a header, as computed by
`cols.str.count('/')` (the pattern `'/'` matches single characters). -/
def countSlash (s : String) : Nat := s.data.countP (· == '/')

/-- The boolean column mask `filt = filt1 | filt2` of `select_columns`:
`filt1 = cols.isin(labels)`, `filt2 = cols.str.count('/') == 2`. -/
def keepCol (c : String) : Bool := idLabels.contains c || countSlash c == 2

/-- Stage `select_columns`: `df.loc[:, filt]` keeps, positionally, the
columns (and each row's cells under them) whose header passes `keepCol`. -/
def select_columns (df : Frame) : Frame :=
  { cols := df.cols.filter keepCol,
    rows := df.rows.map fun r => ((df.cols.zip r).filter fun p => keepCol p.1).map Prod.snd }

/-- One application of `df.replace(REPLACE_AREA)` to a single cell:
string cells are renamed through the lookup table, other cells are kept. -/
def replaceCell (c : Cell) : Cell :=
  match c with
  | Cell.str s =>
      match (REPLACE_AREA.lookup s) with
      | some t => Cell.str t
      | none => Cell.str s
  | c => c

/-- Effect of `df.replace(REPLACE_AREA, inplace=True)` on the whole
table: the rename applies to every cell of every row. -/
def replaceFrame (df : Frame) : Frame :=
  { df with rows := df.rows.map fun r => r.map replaceCell }

/-- Stage `update_areas`, modelled as a call returning the pair
(returned table, final state of the argument object).  The body runs
`df.replace(REPLACE_AREA, inplace=True)` — mutating the DataFrame the
caller passed in — and then filters out rows whose first-column value
equals `'US'` (`filt = df[first_col] != 'US'; df = df[filt]`), which
rebinds the local name only. -/
def update_areas_call (df : Frame) : Frame × Frame :=
  let r := replaceFrame df
  ({ r with rows := r.rows.filter fun row => !(row.head? == some (Cell.str "US")) }, r)

/-- Returned value of the `update_areas` stage. -/
def update_areas (df : Frame) : Frame := (update_areas_call df).1

/-- Group key of a row for `df.groupby(first_col)`: the string value of
its first cell.  Rows whose first cell is missing are dropped by pandas
(`dropna=True`), matching `none` here. -/
def rowKey (r : List Cell) : Option String :=
  match r.head? with
  | some (Cell.str s) => some s
  | _ => none

/-- Numeric reading of a cell inside `groupby(...).sum()`: missing
values count as 0. -/
def cellVal : Cell → ℚ
  | Cell.num q => q
  | _ => 0

/-- Values of a row at the `n` date columns (positions `1..n`), missing
read as 0. -/
def rowVals (n : Nat) (r : List Cell) : List ℚ :=
  (List.range n).map fun j => cellVal (((r.get? (j + 1))).getD Cell.na)

/-- Elementwise sum of the date-column values of a list of rows, as
`groupby(first_col).sum()` computes it for one group. -/
def sumTail (n : Nat) (rs : List (List Cell)) : List ℚ :=
  rs.foldr (fun r acc => List.zipWith (· + ·) (rowVals n r) acc) (List.replicate n 0)

/-- Result of `group_area`: index = area keys, columns = the date
headers, one row of summed values per key. -/
structure Grouped where
  areas : List String
  dateCols : List String
  values : List (List ℚ)
deriving DecidableEq, Repr

/-- Lexicographic comparison of character lists by code point, the
order pandas sorts string group keys in. -/
def charsLe : List Char → List Char → Bool
  | [], _ => true
  | _ :: _, [] => false
  | a :: as, b :: bs =>
      if a.toNat < b.toNat then true
      else if b.toNat < a.toNat then false
      else charsLe as bs

/-- Lexicographic comparison of strings by code point. -/
def strLe (a b : String) : Bool := charsLe a.data b.data

/-- Stage `group_area`: `df.groupby(first_col).sum()`.  Group keys are
the distinct first-column string values, sorted ascending (pandas
`groupby` sorts keys); each group's date columns are summed elementwise
with missing values as 0. -/
def group_area (df : Frame) : Grouped :=
  let keys := List.insertionSort (fun a b => strLe a b = true) (df.rows.filterMap rowKey).dedup
  { areas := keys,
    dateCols := df.cols.drop 1,
    values := keys.map fun k =>
      sumTail (df.cols.length - 1) (df.rows.filter fun r => rowKey r == some k) }

/-- Calendar date as produced by `pd.to_datetime`. -/
structure CalDate where
  year : Nat
  month : Nat
  day : Nat
deriving DecidableEq, Repr

/-- Chronological order on calendar dates. -/
def CalDate.Le (a b : CalDate) : Prop :=
  a.year < b.year ∨
    (a.year = b.year ∧ (a.month < b.month ∨ (a.month = b.month ∧ a.day ≤ b.day)))

instance (a b : CalDate) : Decidable (CalDate.Le a b) :=
  inferInstanceAs (Decidable (a.year < b.year ∨
    (a.year = b.year ∧ (a.month < b.month ∨ (a.month = b.month ∧ a.day ≤ b.day)))))

/-- Digits-only reading of a character list as a natural number
(the numeric parse inside `pd.to_datetime`). -/
def charsToNat (cs : List Char) : Option Nat :=
  if cs ≠ [] ∧ cs.all (·.isDigit) then
    some (cs.foldl (fun n c => n * 10 + (c.toNat - 48)) 0)
  else none

/-- Parse of one former date header by `pd.to_datetime`: the source
headers are `month/day/year` with a two-digit year, and `%y` maps
`00–68` to `20xx` and `69–99` to `19xx`.  An unparseable label makes
`to_datetime` raise, modelled by `none`. -/
def parseDate (s : String) : Option CalDate :=
  match splitParts '/' s.data with
  | [m, d, y] =>
      match charsToNat m, charsToNat d, charsToNat y with
      | some mo, some da, some yr =>
          some ⟨if yr < 69 then 2000 + yr else if yr < 100 then 1900 + yr else yr, mo, da⟩
      | _, _, _ => none
  | _ => none

/-- Result of `transpose_to_ts`: columns = areas, index = parsed dates,
one row of values per date. -/
structure TimeTable where
  areas : List String
  index : List CalDate
  rows : List (List ℚ)
deriving DecidableEq, Repr

/-- Stage `transpose_to_ts`: `df = df.T` then
`df.index = pd.to_datetime(df.index)`.  The matrix is transposed and the
former date headers are parsed in place; no reordering happens. -/
def transpose_to_ts (g : Grouped) : Option TimeTable :=
  (g.dateCols.mapM parseDate).map fun ds =>
    { areas := g.areas, index := ds, rows := g.values.transpose }

/-- A time-series column as `fix_bad_data` sees it: one `Option ℚ` per
date, `none` standing for NaN. -/
def Col : Type := List (Option ℚ)

/-- Columnwise `df.cummax()` with pandas' default `skipna=True`: each
valid cell becomes the maximum of the valid values so far (itself
included); missing cells stay missing and do not feed the maximum.  The
accumulator carries the maximum of the valid values already passed. -/
def cummaxCol (acc : Option ℚ) : List (Option ℚ) → List (Option ℚ)
  | [] => []
  | none :: rest => none :: cummaxCol acc rest
  | some v :: rest =>
      match acc with
      | none => some v :: cummaxCol (some v) rest
      | some a => some (max a v) :: cummaxCol (some (max a v)) rest

/-- Elementwise `df < df.cummax()`: comparisons against NaN are false. -/
def ltMaskCol (xs ys : List (Option ℚ)) : List Bool :=
  List.zipWith
    (fun a b =>
      match a, b with
      | some x, some y => decide (x < y)
      | _, _ => false)
    xs ys

/-- Elementwise `df.mask(mask)`: cells under a true mask become NaN. -/
def maskCol (xs : List (Option ℚ)) (m : List Bool) : List (Option ℚ) :=
  List.zipWith (fun a b => if b then none else a) xs m

/-- One column of `df.mask(df < df.cummax())`, starting from an
arbitrary running maximum (generalisation used in proofs). -/
def maskedFrom (acc : Option ℚ) (xs : List (Option ℚ)) : List (Option ℚ) :=
  maskCol xs (ltMaskCol xs (cummaxCol acc xs))

/-- One column of `df.mask(df < df.cummax())` as the source computes it. -/
def maskedCol (xs : List (Option ℚ)) : List (Option ℚ) :=
  maskedFrom none xs

/-- Position of the nearest valid cell at or before `i`, with its value. -/
def prevValid (xs : List (Option ℚ)) : Nat → Option (Nat × ℚ)
  | 0 =>
      match xs.get? 0 with
      | some (some v) => some (0, v)
      | _ => none
  | i + 1 =>
      match xs.get? (i + 1) with
      | some (some v) => some (i + 1, v)
      | _ => prevValid xs i

/-- Helper for `nextValid`: scan a suffix for its first valid cell,
`i` being the absolute position of the suffix's head. -/
def nextValidAux : List (Option ℚ) → Nat → Option (Nat × ℚ)
  | [], _ => none
  | some v :: _, i => some (i, v)
  | none :: rest, i => nextValidAux rest (i + 1)

/-- Position of the nearest valid cell at or after `i`, with its value. -/
def nextValid (xs : List (Option ℚ)) (i : Nat) : Option (Nat × ℚ) :=
  nextValidAux (xs.drop i) i

/-- Value produced by `df.interpolate()` (pandas defaults:
`method='linear'`, `limit_direction='forward'`) at position `i`: a valid
cell keeps its value; a missing cell between valid neighbours `(j, a)`
and `(k, b)` becomes `a + (b - a) * (i - j) / (k - j)`; a missing cell
after the last valid cell takes that last valid value; a missing cell
before the first valid cell stays missing (no backward fill). -/
def interpAt (xs : List (Option ℚ)) (i : Nat) : Option ℚ :=
  match xs.get? i with
  | some (some v) => some v
  | some none =>
      match prevValid xs i, nextValid xs (i + 1) with
      | some (j, a), some (k, b) =>
          some (a + (b - a) * ((i - j : ℕ) : ℚ) / ((k - j : ℕ) : ℚ))
      | some (_, a), none => some a
      | none, _ => none
  | none => none

/-- One column of `df.interpolate()` with the pandas defaults. -/
def interpolateCol (xs : List (Option ℚ)) : List (Option ℚ) :=
  (List.range xs.length).map (interpAt xs)

/-- The rounding `round(0)` applies (numpy round-half-to-even).  With
`f = floor q`, the doubled fractional part `2 * den * (q - f)` is the
integer `2 * (q.num - f * q.den)`; comparing it with `den` decides
whether `q` lies below, above, or exactly on a half, and the tie goes to
the even neighbour. -/
def roundHalfEven (q : ℚ) : ℤ :=
  let f := Rat.floor q
  let r2 : ℤ := 2 * (q.num - f * (q.den : ℤ))
  if r2 < (q.den : ℤ) then f
  else if (q.den : ℤ) < r2 then f + 1
  else if f % 2 = 0 then f else f + 1

instance {ε α : Type} [DecidableEq ε] [DecidableEq α] : DecidableEq (Except ε α) := fun x y =>
  match x, y with
  | Except.ok a, Except.ok b =>
      decidable_of_iff (a = b) ⟨fun h => h ▸ rfl, fun h => Except.ok.inj h⟩
  | Except.ok _, Except.error _ => isFalse (fun h => Except.noConfusion h)
  | Except.error _, Except.ok _ => isFalse (fun h => Except.noConfusion h)
  | Except.error e, Except.error f =>
      decidable_of_iff (e = f) ⟨fun h => h ▸ rfl, fun h => Except.error.inj h⟩

/-- Error message of pandas `astype('int64')` on a NaN cell. -/
def convErr : String := "Cannot convert non-finite values (NA or inf) to integer"

/-- The coercion `astype('int64')` of one column: succeeds with the
integer values if no cell is missing, raises otherwise. -/
def toInt64 : List (Option ℤ) → Except String (List ℤ)
  | [] => Except.ok []
  | some z :: rest => (toInt64 rest).map (z :: ·)
  | none :: _ => Except.error convErr

/-- The body of `fix_bad_data` on one column:
`df.mask(df < df.cummax()).interpolate().round(0).astype('int64')`. -/
def fix_col (xs : List (Option ℚ)) : Except String (List ℤ) :=
  toInt64 ((interpolateCol (maskedCol xs)).map (Option.map roundHalfEven))

/-- Columnwise sequencing with pandas' error behaviour: the first column
whose coercion fails makes the whole call raise. -/
def mapExcept (f : α → Except ε β) : List α → Except ε (List β)
  | [] => Except.ok []
  | x :: xs =>
      match f x with
      | Except.error e => Except.error e
      | Except.ok y =>
          match mapExcept f xs with
          | Except.error e => Except.error e
          | Except.ok ys => Except.ok (y :: ys)

/-- Stage `fix_bad_data` on a series given as its list of columns. -/
def fix_bad_data (df : List (List (Option ℚ))) : Except String (List (List ℤ)) :=
  mapExcept fix_col df

/-- Stage `select_columns` as a call pair (returned table, final state
of the argument): `df.loc[:, filt]` builds a new table. -/
def select_columns_call (df : Frame) : Frame × Frame :=
  (select_columns df, df)

/-- Stage `group_area` as a call pair: `df.groupby(first_col).sum()`
builds a new table. -/
def group_area_call (df : Frame) : Grouped × Frame :=
  (group_area df, df)

/-- Stage `transpose_to_ts` as a call pair: `df.T` builds a new table
and the local rebinding leaves the argument untouched. -/
def transpose_to_ts_call (g : Grouped) : Option TimeTable × Grouped :=
  (transpose_to_ts g, g)

/-- Stage `fix_bad_data` as a call pair: `mask`, `interpolate`, `round`
and `astype` all return new objects. -/
def fix_bad_data_call (df : List (List (Option ℚ))) :
    Except String (List (List ℤ)) × List (List (Option ℚ)) :=
  (fix_bad_data df, df)

/-! ### Helper lemmas -/

theorem splitParts_ne_nil (sep : Char) (l : List Char) : splitParts sep l ≠ [] := by
  cases l with
  | nil => simp [splitParts]
  | cons c cs =>
      simp only [splitParts]
      by_cases h : c = sep
      · simp [h]
      · simp only [if_neg h]
        cases hr : splitParts sep cs with
        | nil => simp
        | cons p ps => simp

theorem splitParts_length (sep : Char) (l : List Char) :
    (splitParts sep l).length = l.countP (· == sep) + 1 := by
  induction l with
  | nil => simp [splitParts]
  | cons c cs ih =>
      simp only [splitParts, List.countP_cons]
      by_cases h : c = sep
      · simp [h, ih]
      · cases hr : splitParts sep cs with
        | nil => exact absurd hr (splitParts_ne_nil sep cs)
        | cons p ps =>
            rw [hr] at ih
            simp [h, ih.symm, hr]

theorem keepCol_eq_specPred (c : String) :
    keepCol c = (decide (c ∈ idLabels) || decide ((splitParts '/' c.data).length = 3)) := by
  have h3 : ((splitParts '/' c.data).length = 3) ↔ countSlash c = 2 := by
    rw [splitParts_length]
    unfold countSlash
    omega
  by_cases hm : c ∈ idLabels
  · simp [keepCol, hm]
  · by_cases h2 : countSlash c = 2
    · simp [keepCol, hm, h2, h3.mpr h2]
    · have hn : ¬ (splitParts '/' c.data).length = 3 := fun hh => h2 (h3.mp hh)
      simp [keepCol, hm, h2, hn]

/-! ### Concrete tables used in counterexamples and witnesses -/

/-- A raw world table with the header shape named by the spec's column
selection scenario. -/
def worldRaw : Frame :=
  ⟨["Province/State", "Country/Region", "Lat", "Long", "1/22/20"],
   [[Cell.str "Anhui", Cell.str "China", Cell.num 31, Cell.num 117, Cell.num 1]]⟩

/-- A usa-group table (identifying column `Province_State`) carrying a
row whose identifying value is `US`. -/
def usaFrame : Frame := ⟨["Province_State", "1/22/20"], [[Cell.str "US", Cell.num 3]]⟩

/-- A world-group table with one `Burma` row, renamed by the rename
table. -/
def burmaFrame : Frame := ⟨["Country/Region", "1/22/20"], [[Cell.str "Burma", Cell.num 1]]⟩

/-- A grouped table whose date columns are not in chronological order. -/
def unsortedGrouped : Grouped := ⟨["Afghanistan"], ["1/23/20", "1/22/20"], [[1, 2]]⟩

/-- A grouped table whose date columns are in chronological order. -/
def sortedGrouped : Grouped := ⟨["Afghanistan"], ["1/22/20", "1/23/20"], [[1, 2]]⟩

/-! ### C10 -/

set_option maxRecDepth 40000 in
/-- C10: `download_data` validates nothing, and the two fallbacks are
independent: every group other than `usa` is sent to the provider group
`global` whatever the kind (the request behaves like a `world` request),
and every kind other than `cases` is sent to the provider kind `deaths`
whatever the group (the request behaves like a `deaths` request); the
world-deaths request builds the global-deaths URL, so
`download_data("france", "recoveries")` builds the world-deaths URL
instead of signalling an error. -/
theorem download_data_no_validation :
    (∀ g k : String, g ≠ "usa" → download_data_url g k = download_data_url "world" k) ∧
    (∀ g k : String, k ≠ "cases" → download_data_url g k = download_data_url g "deaths") ∧
    download_data_url "world" "deaths" = pyFormat2 DOWNLOAD_URL "deaths" "global" ∧
    download_data_url "france" "recoveries" = download_data_url "world" "deaths" := by
  refine ⟨?_, ?_, ?_, ?_⟩
  · intro g k hg
    simp [download_data_url, hg]
  · intro g k hk
    simp [download_data_url, hk]
  · decide
  · decide

set_option maxRecDepth 40000 in
theorem download_data_no_validation_witness :
    ("france" : String) ≠ "usa" ∧ ("recoveries" : String) ≠ "cases" ∧
    download_data_url "france" "cases" = download_data_url "world" "cases" ∧
    download_data_url "usa" "recoveries" = download_data_url "usa" "deaths" :=
  ⟨by decide, by decide,
    download_data_no_validation.1 "france" "cases" (by decide),
    download_data_no_validation.2.1 "usa" "recoveries" (by decide)⟩

/-! ### C6 -/

set_option maxRecDepth 40000 in
/-- C6: `select_columns` keeps exactly the columns whose header is one
of the identifying labels or splits on `/` into exactly 3 parts; on the
spec's example table only `Country/Region` and `1/22/20` remain. -/
theorem select_columns_spec :
    (∀ df : Frame, (select_columns df).cols =
      df.cols.filter fun c =>
        decide (c ∈ idLabels) || decide ((splitParts '/' c.data).length = 3)) ∧
    (select_columns worldRaw).cols = ["Country/Region", "1/22/20"] := by
  constructor
  · intro df
    simp only [select_columns]
    exact List.filter_congr fun c _ => keepCol_eq_specPred c
  · decide

/-! ### C4 -/

/-- C4 counterexample: a usa-group table (identifying column
`Province_State`) with a row whose identifying value is `US` does not
pass through `update_areas` unfiltered — the row is dropped, because the
code applies the US-filter to every table with no group check. -/
theorem update_areas_usa_not_passthrough :
    usaFrame.cols.head? = some "Province_State" ∧
    usaFrame.rows = [[Cell.str "US", Cell.num 3]] ∧
    (update_areas usaFrame).rows = [] := by decide

/-- C4 amended: `update_areas` drops the rows whose renamed identifying
value equals `US` from every table it is given, regardless of group:
the output rows are exactly the renamed input rows whose first cell
is not the string `US`. -/
theorem update_areas_filters_every_table (df : Frame) (r : List Cell) :
    r ∈ (update_areas df).rows ↔
      ((∃ r₀ ∈ df.rows, r = r₀.map replaceCell) ∧ r.head? ≠ some (Cell.str "US")) := by
  simp only [update_areas, update_areas_call, replaceFrame, List.mem_filter, List.mem_map,
    Bool.not_eq_true', beq_eq_false_iff_ne, ne_eq]
  constructor
  · rintro ⟨⟨r₀, hr₀, rfl⟩, hne⟩
    exact ⟨⟨r₀, hr₀, rfl⟩, hne⟩
  · rintro ⟨⟨r₀, hr₀, rfl⟩, hne⟩
    exact ⟨⟨r₀, hr₀, rfl⟩, hne⟩

/-! ### C8 -/

/-- C8 counterexample: `update_areas` does not leave the table passed in
unchanged — the in-place rename leaves the caller's `Burma` row as
`Myanmar`. -/
theorem update_areas_mutates_argument :
    (update_areas_call burmaFrame).2 ≠ burmaFrame ∧
    (update_areas_call burmaFrame).2.rows = [[Cell.str "Myanmar", Cell.num 1]] := by decide

/-- C8 amended: `select_columns`, `group_area`, `transpose_to_ts` and
`fix_bad_data` return new tables and leave the table passed in
unchanged; `update_areas` also returns a new table but leaves its
argument in the renamed state (the in-place `replace`), so it is the one
stage that is not pure. -/
theorem pipeline_stage_argument_effects :
    (∀ df : Frame, (select_columns_call df).2 = df) ∧
    (∀ df : Frame, (update_areas_call df).2 = replaceFrame df) ∧
    (∀ df : Frame, (group_area_call df).2 = df) ∧
    (∀ g : Grouped, (transpose_to_ts_call g).2 = g) ∧
    (∀ df : List (List (Option ℚ)), (fix_bad_data_call df).2 = df) :=
  ⟨fun _ => rfl, fun _ => rfl, fun _ => rfl, fun _ => rfl, fun _ => rfl⟩

/-! ### C5 -/

/-- C5 counterexample: on date columns given out of chronological order,
`transpose_to_ts` returns the rows in that same order — the index
`[Jan 23, Jan 22]` is not sorted ascending. -/
theorem transpose_to_ts_does_not_sort :
    transpose_to_ts unsortedGrouped =
      some ⟨["Afghanistan"], [⟨2020, 1, 23⟩, ⟨2020, 1, 22⟩], [[1], [2]]⟩ ∧
    ¬ List.Chain' CalDate.Le [⟨2020, 1, 23⟩, ⟨2020, 1, 22⟩] := by
  constructor
  · decide
  · rw [List.chain'_pair]
    decide

/-- C5 amended: `transpose_to_ts` parses each former date header into a
calendar date and keeps the rows in the input's column order (it does
not sort), so the index is ascending exactly when the input's date
columns already were. -/
theorem transpose_to_ts_preserves_order (g : Grouped) (ds : List CalDate)
    (h : g.dateCols.mapM parseDate = some ds) :
    ∃ ts, transpose_to_ts g = some ts ∧ ts.index = ds ∧
      (List.Chain' CalDate.Le ds → List.Chain' CalDate.Le ts.index) := by
  refine ⟨⟨g.areas, ds, g.values.transpose⟩, ?_, rfl, fun hc => hc⟩
  unfold transpose_to_ts
  rw [h]
  rfl

theorem transpose_to_ts_preserves_order_witness :
    sortedGrouped.dateCols.mapM parseDate = some [⟨2020, 1, 22⟩, ⟨2020, 1, 23⟩] ∧
    ∃ ts, transpose_to_ts sortedGrouped = some ts ∧
      ts.index = [⟨2020, 1, 22⟩, ⟨2020, 1, 23⟩] ∧
      (List.Chain' CalDate.Le [⟨2020, 1, 22⟩, ⟨2020, 1, 23⟩] →
        List.Chain' CalDate.Le ts.index) :=
  ⟨by decide, transpose_to_ts_preserves_order sortedGrouped _ (by decide)⟩

/-! ### C7 -/

theorem rowVals_get (n : Nat) (r : List Cell) (j : Nat) (hj : j < n) :
    (rowVals n r).get? j = some (cellVal ((r.get? (j + 1)).getD Cell.na)) := by
  simp [rowVals, List.get?_eq_getElem?, List.getElem?_map, List.getElem?_range, hj]

theorem sumTail_get (n : Nat) (rs : List (List Cell)) (j : Nat) (hj : j < n) :
    (sumTail n rs).get? j =
      some ((rs.map fun r => cellVal ((r.get? (j + 1)).getD Cell.na)).sum) := by
  induction rs with
  | nil => simp [sumTail, List.get?_eq_getElem?, List.getElem?_replicate, hj]
  | cons r rs ih =>
      show (List.zipWith (· + ·) (rowVals n r) (sumTail n rs)).get? j = _
      rw [List.get?_zipWith', rowVals_get n r j hj, ih]
      simp

/-- C7: `group_area` produces exactly one row per distinct identifying
value (each key string occurring in the table appears exactly once among
the group keys, with one value row per key), and the aggregated value of
a key at each date column is the sum of the matching rows' values there,
missing cells counted as 0. -/
theorem group_area_spec (df : Frame) :
    ((group_area df).values.length = (group_area df).areas.length) ∧
    (∀ k : String, (group_area df).areas.count k =
      if k ∈ df.rows.filterMap rowKey then 1 else 0) ∧
    ∀ i k, (group_area df).areas.get? i = some k →
      ∀ j, j < df.cols.length - 1 →
        ((group_area df).values.get? i).bind (fun row => row.get? j) =
          some (((df.rows.filter fun r => rowKey r == some k).map
            fun r => cellVal ((r.get? (j + 1)).getD Cell.na)).sum) := by
  refine ⟨by simp [group_area], ?_, ?_⟩
  · intro k
    have hperm :=
      List.perm_insertionSort (fun a b => strLe a b = true) (df.rows.filterMap rowKey).dedup
    show (List.insertionSort (fun a b => strLe a b = true)
        (df.rows.filterMap rowKey).dedup).count k = _
    rw [hperm.count_eq, List.count_dedup]
  · intro i k hik j hj
    have hik' : (List.insertionSort (fun a b => strLe a b = true)
        (df.rows.filterMap rowKey).dedup).get? i = some k := hik
    have hv : (group_area df).values.get? i =
        some (sumTail (df.cols.length - 1)
          (df.rows.filter fun r => rowKey r == some k)) := by
      show ((List.insertionSort (fun a b => strLe a b = true)
          (df.rows.filterMap rowKey).dedup).map fun k =>
            sumTail (df.cols.length - 1)
              (df.rows.filter fun r => rowKey r == some k)).get? i = _
      rw [List.get?_eq_getElem? ] at hik' ⊢
      simp [List.getElem?_map, hik']
    rw [hv]
    simpa using sumTail_get (df.cols.length - 1) _ j hj

/-- A frame with two raw rows sharing the key `B`, used to instantiate
`group_area_spec`. -/
def groupFrame : Frame :=
  ⟨["Country/Region", "1/22/20", "1/23/20"],
   [[Cell.str "B", Cell.num 1, Cell.na],
    [Cell.str "A", Cell.num 2, Cell.num 5],
    [Cell.str "B", Cell.num 10, Cell.num 20]]⟩

theorem group_area_spec_witness :
    (group_area groupFrame).areas.get? 1 = some "B" ∧ (1 : Nat) < groupFrame.cols.length - 1 ∧
    ((group_area groupFrame).values.get? 1).bind (fun row => row.get? 1) =
      some (((groupFrame.rows.filter fun r => rowKey r == some "B").map
        fun r => cellVal ((r.get? 2).getD Cell.na)).sum) :=
  ⟨by decide, by decide,
    (group_area_spec groupFrame).2.2 1 "B" (by decide) 1 (by decide)⟩

/-! ### Lemmas about the mask stage -/

theorem drop_eq_cons_of_get? {α : Type} (xs : List α) (i : Nat) (c : α)
    (h : xs.get? i = some c) : xs.drop i = c :: xs.drop (i + 1) := by
  induction xs generalizing i with
  | nil => simp at h
  | cons x t ih =>
      cases i with
      | zero =>
          simp only [List.get?_cons_zero, Option.some.injEq] at h
          simp [h]
      | succ n =>
          simp only [List.get?_cons_succ] at h
          simpa using ih n h

theorem maskedFrom_nil (acc : Option ℚ) : maskedFrom acc [] = [] := by
  simp [maskedFrom, cummaxCol, ltMaskCol, maskCol]

theorem maskedFrom_cons_none (acc : Option ℚ) (xs : List (Option ℚ)) :
    maskedFrom acc (none :: xs) = none :: maskedFrom acc xs := by
  simp [maskedFrom, cummaxCol, ltMaskCol, maskCol]

theorem maskedFrom_cons_some_none (v : ℚ) (xs : List (Option ℚ)) :
    maskedFrom none (some v :: xs) = some v :: maskedFrom (some v) xs := by
  simp [maskedFrom, cummaxCol, ltMaskCol, maskCol]

theorem maskedFrom_cons_some_some (a v : ℚ) (xs : List (Option ℚ)) :
    maskedFrom (some a) (some v :: xs) =
      (if v < max a v then none else some v) :: maskedFrom (some (max a v)) xs := by
  by_cases h : v < max a v <;>
    simp [maskedFrom, cummaxCol, ltMaskCol, maskCol, h]

theorem maskedFrom_length (xs : List (Option ℚ)) :
    ∀ acc : Option ℚ, (maskedFrom acc xs).length = xs.length := by
  induction xs with
  | nil => intro acc; simp [maskedFrom_nil]
  | cons c t ih =>
      intro acc
      cases c with
      | none => simp [maskedFrom_cons_none, ih]
      | some v =>
          cases acc with
          | none => simp [maskedFrom_cons_some_none, ih]
          | some a =>
              rw [maskedFrom_cons_some_some]
              simp [ih]

theorem maskedFrom_get_valid (xs : List (Option ℚ)) :
    ∀ (acc : Option ℚ) (k : Nat) (v : ℚ),
      (maskedFrom acc xs).get? k = some (some v) →
      xs.get? k = some (some v) ∧ (∀ a, acc = some a → a ≤ v) ∧
      ∀ j a, j < k → xs.get? j = some (some a) → a ≤ v := by
  induction xs with
  | nil => intro acc k v h; rw [maskedFrom_nil] at h; simp at h
  | cons c t ih =>
      intro acc k v h
      cases c with
      | none =>
          rw [maskedFrom_cons_none] at h
          cases k with
          | zero => simp at h
          | succ k =>
              rw [List.get?_cons_succ] at h
              obtain ⟨h1, h2, h3⟩ := ih acc k v h
              refine ⟨h1, h2, ?_⟩
              intro j a hj ha
              cases j with
              | zero => simp at ha
              | succ j =>
                  rw [List.get?_cons_succ] at ha
                  exact h3 j a (Nat.lt_of_succ_lt_succ hj) ha
      | some w =>
          cases acc with
          | none =>
              rw [maskedFrom_cons_some_none] at h
              cases k with
              | zero =>
                  simp only [List.get?_cons_zero, Option.some.injEq] at h
                  refine ⟨by simp [h], by simp, ?_⟩
                  intro j a hj
                  omega
              | succ k =>
                  rw [List.get?_cons_succ] at h
                  obtain ⟨h1, h2, h3⟩ := ih (some w) k v h
                  have hwv : w ≤ v := h2 w rfl
                  refine ⟨h1, by simp, ?_⟩
                  intro j a hj ha
                  cases j with
                  | zero =>
                      simp only [List.get?_cons_zero, Option.some.injEq] at ha
                      exact ha ▸ hwv
                  | succ j =>
                      rw [List.get?_cons_succ] at ha
                      exact h3 j a (Nat.lt_of_succ_lt_succ hj) ha
          | some a0 =>
              rw [maskedFrom_cons_some_some] at h
              cases k with
              | zero =>
                  rw [List.get?_cons_zero] at h
                  by_cases hlt : w < max a0 w
                  · rw [if_pos hlt] at h; simp at h
                  · rw [if_neg hlt] at h
                    have hmax : max a0 w ≤ w := le_of_not_lt hlt
                    simp only [Option.some.injEq] at h
                    subst h
                    refine ⟨rfl, ?_, ?_⟩
                    · intro a ha
                      cases ha
                      exact le_trans (le_max_left a0 _) hmax
                    · intro j a hj
                      omega
              | succ k =>
                  rw [List.get?_cons_succ] at h
                  obtain ⟨h1, h2, h3⟩ := ih (some (max a0 w)) k v h
                  have hmv : max a0 w ≤ v := h2 (max a0 w) rfl
                  refine ⟨h1, ?_, ?_⟩
                  · intro a ha
                    cases ha
                    exact le_trans (le_max_left _ _) hmv
                  · intro j a hj ha
                    cases j with
                    | zero =>
                        simp only [List.get?_cons_zero, Option.some.injEq] at ha
                        subst ha
                        exact le_trans (le_max_right a0 _) hmv
                    | succ j =>
                        rw [List.get?_cons_succ] at ha
                        exact h3 j a (Nat.lt_of_succ_lt_succ hj) ha

theorem maskedCol_head (xs : List (Option ℚ)) :
    (maskedCol xs).get? 0 = xs.get? 0 := by
  cases xs with
  | nil => simp [maskedCol, maskedFrom_nil]
  | cons c t =>
      cases c with
      | none => simp [maskedCol, maskedFrom_cons_none]
      | some v => simp [maskedCol, maskedFrom_cons_some_none]

theorem maskedFrom_all_none (xs : List (Option ℚ)) (hmiss : ∀ c ∈ xs, c = none) :
    ∀ acc : Option ℚ, maskedFrom acc xs = xs := by
  induction xs with
  | nil => intro acc; exact maskedFrom_nil acc
  | cons c t ih =>
      intro acc
      have hc : c = none := hmiss c (List.mem_cons_self c t)
      subst hc
      rw [maskedFrom_cons_none]
      rw [ih (fun d hd => hmiss d (List.mem_cons_of_mem _ hd)) acc]

/-! ### Lemmas about the interpolation neighbour searches -/

theorem prevValid_of_valid (xs : List (Option ℚ)) (i : Nat) (v : ℚ)
    (h : xs.get? i = some (some v)) : prevValid xs i = some (i, v) := by
  rw [List.get?_eq_getElem? ] at h
  cases i with
  | zero => simp [prevValid, h]
  | succ n => simp [prevValid, h]

theorem prevValid_succ_of_invalid (xs : List (Option ℚ)) (i : Nat)
    (h : xs.get? (i + 1) = some none) : prevValid xs (i + 1) = prevValid xs i := by
  rw [List.get?_eq_getElem? ] at h
  simp [prevValid, h]

theorem prevValid_spec (xs : List (Option ℚ)) :
    ∀ (i j : Nat) (a : ℚ), prevValid xs i = some (j, a) →
      j ≤ i ∧ xs.get? j = some (some a) := by
  intro i
  induction i with
  | zero =>
      intro j a h
      simp only [prevValid] at h
      cases hx : xs.get? 0 with
      | none => rw [hx] at h; simp at h
      | some o =>
          cases o with
          | none => rw [hx] at h; simp at h
          | some v =>
              rw [hx] at h
              simp only [Option.some.injEq, Prod.mk.injEq] at h
              exact ⟨h.1 ▸ le_refl _, by rw [← h.1, hx, h.2]⟩
  | succ n ih =>
      intro j a h
      simp only [prevValid] at h
      cases hx : xs.get? (n + 1) with
      | none =>
          rw [hx] at h
          obtain ⟨h1, h2⟩ := ih j a h
          exact ⟨Nat.le_succ_of_le h1, h2⟩
      | some o =>
          cases o with
          | none =>
              rw [hx] at h
              obtain ⟨h1, h2⟩ := ih j a h
              exact ⟨Nat.le_succ_of_le h1, h2⟩
          | some v =>
              rw [hx] at h
              simp only [Option.some.injEq, Prod.mk.injEq] at h
              refine ⟨h.1 ▸ le_refl _, ?_⟩
              rw [← h.1, hx, h.2]

theorem prevValid_isSome (xs : List (Option ℚ)) (v₀ : ℚ)
    (h0 : xs.get? 0 = some (some v₀)) :
    ∀ i, ∃ j a, prevValid xs i = some (j, a) := by
  intro i
  induction i with
  | zero =>
      refine ⟨0, v₀, ?_⟩
      rw [List.get?_eq_getElem? ] at h0
      simp [prevValid, h0]
  | succ n ih =>
      cases hx : xs.get? (n + 1) with
      | none =>
          obtain ⟨j, a, h⟩ := ih
          rw [List.get?_eq_getElem? ] at hx
          exact ⟨j, a, by simp [prevValid, hx, h]⟩
      | some o =>
          cases o with
          | none =>
              obtain ⟨j, a, h⟩ := ih
              rw [List.get?_eq_getElem? ] at hx
              exact ⟨j, a, by simp [prevValid, hx, h]⟩
          | some v =>
              rw [List.get?_eq_getElem? ] at hx
              exact ⟨n + 1, v, by simp [prevValid, hx]⟩

theorem nextValidAux_spec :
    ∀ (l : List (Option ℚ)) (i k : Nat) (b : ℚ),
      nextValidAux l i = some (k, b) → i ≤ k ∧ l.get? (k - i) = some (some b) := by
  intro l
  induction l with
  | nil => intro i k b h; simp [nextValidAux] at h
  | cons c t ih =>
      intro i k b h
      cases c with
      | some v =>
          simp only [nextValidAux, Option.some.injEq, Prod.mk.injEq] at h
          refine ⟨h.1 ▸ le_refl _, ?_⟩
          rw [← h.1, Nat.sub_self]
          simp [h.2]
      | none =>
          simp only [nextValidAux] at h
          obtain ⟨h1, h2⟩ := ih (i + 1) k b h
          refine ⟨Nat.le_of_succ_le h1, ?_⟩
          have hk : k - i = (k - (i + 1)) + 1 := by omega
          rw [hk, List.get?_cons_succ]
          exact h2

theorem nextValid_spec (xs : List (Option ℚ)) (i k : Nat) (b : ℚ)
    (h : nextValid xs i = some (k, b)) : i ≤ k ∧ xs.get? k = some (some b) := by
  obtain ⟨h1, h2⟩ := nextValidAux_spec (xs.drop i) i k b h
  refine ⟨h1, ?_⟩
  rw [List.get?_drop] at h2
  rwa [Nat.add_sub_cancel' h1] at h2

theorem nextValid_of_valid (xs : List (Option ℚ)) (i : Nat) (v : ℚ)
    (h : xs.get? i = some (some v)) : nextValid xs i = some (i, v) := by
  unfold nextValid
  rw [drop_eq_cons_of_get? xs i (some v) h]
  rfl

theorem nextValid_of_invalid (xs : List (Option ℚ)) (i : Nat)
    (h : xs.get? i = some none) : nextValid xs i = nextValid xs (i + 1) := by
  unfold nextValid
  rw [drop_eq_cons_of_get? xs i none h]
  rfl

theorem nextValidAux_all_none :
    ∀ (l : List (Option ℚ)), (∀ c ∈ l, c = none) → ∀ i, nextValidAux l i = none := by
  intro l
  induction l with
  | nil => intro _ i; rfl
  | cons c t ih =>
      intro hall i
      have hc : c = none := hall c (List.mem_cons_self c t)
      subst hc
      simp only [nextValidAux]
      exact ih (fun d hd => hall d (List.mem_cons_of_mem _ hd)) (i + 1)

theorem nextValid_none_of_all_missing (xs : List (Option ℚ)) (i : Nat)
    (h : ∀ l, i ≤ l → l < xs.length → xs.get? l = some none) :
    nextValid xs i = none := by
  unfold nextValid
  apply nextValidAux_all_none
  intro c hc
  obtain ⟨j, hj⟩ := List.mem_iff_get?.mp hc
  rw [List.get?_drop] at hj
  have hlt : i + j < xs.length := by
    by_contra hge
    rw [List.get?_eq_none.mpr (by omega)] at hj
    exact Option.noConfusion hj
  have := h (i + j) (Nat.le_add_right i j) hlt
  rw [this] at hj
  exact ((Option.some.injEq _ _).mp hj).symm

theorem prevValid_of_missing_run (xs : List (Option ℚ)) (k : Nat) (v : ℚ)
    (hk : xs.get? k = some (some v)) :
    ∀ i, k ≤ i → (∀ l, k < l → l ≤ i → xs.get? l = some none) →
    prevValid xs i = some (k, v) := by
  intro i
  induction i with
  | zero =>
      intro hki _
      have : k = 0 := Nat.le_zero.mp hki
      subst this
      exact prevValid_of_valid xs 0 v hk
  | succ n ih =>
      intro hki hmiss
      rcases Nat.lt_or_ge k (n + 1) with hlt | hge
      · have hmn : xs.get? (n + 1) = some none :=
          hmiss (n + 1) hlt (le_refl _)
        rw [prevValid_succ_of_invalid xs n hmn]
        exact ih (Nat.lt_succ_iff.mp hlt)
          (fun l h1 h2 => hmiss l h1 (Nat.le_succ_of_le h2))
      · have : k = n + 1 := Nat.le_antisymm hki hge
        subst this
        exact prevValid_of_valid xs (n + 1) v hk

/-! ### Lemmas about round-half-to-even -/

theorem ratFloor_eq_intFloor (q : ℚ) : Rat.floor q = ⌊q⌋ :=
  (Rat.floor_def' q).trans Rat.floor_def.symm

theorem fract_num_cast (q : ℚ) :
    ((q.num - ⌊q⌋ * (q.den : ℤ) : ℤ) : ℚ) = (q - ⌊q⌋) * q.den := by
  have hden : ((q.den : ℚ)) ≠ 0 := by
    exact_mod_cast q.den_nz
  have hnum : (q.num : ℚ) = q * q.den := by
    have h := Rat.num_div_den q
    rw [div_eq_iff hden] at h
    exact h
  push_cast
  rw [hnum]
  ring

theorem roundHalfEven_eq (q : ℚ) :
    roundHalfEven q =
      if q - ⌊q⌋ < 1/2 then ⌊q⌋
      else if 1/2 < q - ⌊q⌋ then ⌊q⌋ + 1
      else if ⌊q⌋ % 2 = 0 then ⌊q⌋ else ⌊q⌋ + 1 := by
  have hden : (0 : ℚ) < (q.den : ℚ) := by
    exact_mod_cast q.pos
  have hcast : ((2 * (q.num - ⌊q⌋ * (q.den : ℤ)) : ℤ) : ℚ) = (2 * (q - ⌊q⌋)) * q.den := by
    rw [Int.cast_mul, fract_num_cast]
    push_cast
    ring
  have hdc : (((q.den : ℤ) : ℚ)) = 1 * (q.den : ℚ) := by
    push_cast
    ring
  have hc1 : (2 * (q.num - ⌊q⌋ * (q.den : ℤ)) < (q.den : ℤ)) ↔ (q - ⌊q⌋ < 1/2) := by
    rw [← Int.cast_lt (R := ℚ), hcast, hdc, mul_lt_mul_right hden]
    constructor <;> intro <;> linarith
  have hc2 : ((q.den : ℤ) < 2 * (q.num - ⌊q⌋ * (q.den : ℤ))) ↔ (1/2 < q - ⌊q⌋) := by
    rw [← Int.cast_lt (R := ℚ), hcast, hdc, mul_lt_mul_right hden]
    constructor <;> intro <;> linarith
  simp only [roundHalfEven, ratFloor_eq_intFloor]
  simp only [hc1, hc2]

theorem roundHalfEven_intCast (z : ℤ) : roundHalfEven ((z : ℤ) : ℚ) = z := by
  rw [roundHalfEven_eq, Int.floor_intCast]
  norm_num

theorem roundHalfEven_mono {p q : ℚ} (h : p ≤ q) :
    roundHalfEven p ≤ roundHalfEven q := by
  rcases lt_trichotomy (⌊p⌋) (⌊q⌋) with hf | hf | hf
  · have h1 : roundHalfEven p ≤ ⌊p⌋ + 1 := by
      rw [roundHalfEven_eq]; split_ifs <;> omega
    have h2 : ⌊q⌋ ≤ roundHalfEven q := by
      rw [roundHalfEven_eq]; split_ifs <;> omega
    omega
  · have hfr : p - (⌊p⌋ : ℚ) ≤ q - (⌊p⌋ : ℚ) := by linarith
    rw [roundHalfEven_eq, roundHalfEven_eq, ← hf]
    split_ifs <;> first | omega | linarith
  · exact absurd (Int.floor_mono h) (by omega)

/-! ### Lemmas about one interpolation step -/

theorem interpAt_valid (xs : List (Option ℚ)) (i : Nat) (v : ℚ)
    (h : xs.get? i = some (some v)) : interpAt xs i = some v := by
  unfold interpAt
  rw [h]

theorem interpAt_missing_interior (xs : List (Option ℚ)) (i j : Nat) (a : ℚ)
    (k : Nat) (b : ℚ) (h : xs.get? i = some none)
    (hp : prevValid xs i = some (j, a)) (hn : nextValid xs (i + 1) = some (k, b)) :
    interpAt xs i = some (a + (b - a) * ((i - j : ℕ) : ℚ) / ((k - j : ℕ) : ℚ)) := by
  unfold interpAt
  rw [h, hp, hn]

theorem interpAt_missing_tail (xs : List (Option ℚ)) (i j : Nat) (a : ℚ)
    (h : xs.get? i = some none)
    (hp : prevValid xs i = some (j, a)) (hn : nextValid xs (i + 1) = none) :
    interpAt xs i = some a := by
  unfold interpAt
  rw [h, hp, hn]

theorem interpAt_missing_noprev (xs : List (Option ℚ)) (i : Nat)
    (h : xs.get? i = some none) (hp : prevValid xs i = none) :
    interpAt xs i = none := by
  unfold interpAt
  rw [h, hp]

theorem interpAt_total (xs : List (Option ℚ)) (v₀ : ℚ)
    (h0 : xs.get? 0 = some (some v₀)) (i : Nat) (hi : i < xs.length) :
    ∃ w, interpAt xs i = some w := by
  cases hx : xs.get? i with
  | none =>
      rw [List.get?_eq_none] at hx
      omega
  | some o =>
      cases o with
      | some v => exact ⟨v, interpAt_valid xs i v hx⟩
      | none =>
          obtain ⟨j, a, hp⟩ := prevValid_isSome xs v₀ h0 i
          cases hn : nextValid xs (i + 1) with
          | none => exact ⟨a, interpAt_missing_tail xs i j a hx hp hn⟩
          | some kb =>
              obtain ⟨k, b⟩ := kb
              exact ⟨_, interpAt_missing_interior xs i j a k b hx hp hn⟩

theorem interpAt_adjacent_le (xs : List (Option ℚ))
    (hmono : ∀ j k a b, j < k → xs.get? j = some (some a) →
      xs.get? k = some (some b) → a ≤ b)
    (v₀ : ℚ) (h0 : xs.get? 0 = some (some v₀))
    (i : Nat) (hi : i + 1 < xs.length) (w w' : ℚ)
    (hw : interpAt xs i = some w) (hw' : interpAt xs (i + 1) = some w') :
    w ≤ w' := by
  cases hx : xs.get? i with
  | none =>
      rw [List.get?_eq_none] at hx
      omega
  | some o =>
  cases o with
  | some a =>
      rw [interpAt_valid xs i a hx] at hw
      injection hw with hw
      subst hw
      cases hx1 : xs.get? (i + 1) with
      | none =>
          rw [List.get?_eq_none] at hx1
          omega
      | some o1 =>
      cases o1 with
      | some b =>
          rw [interpAt_valid xs (i + 1) b hx1] at hw'
          injection hw' with hw'
          subst hw'
          exact hmono i (i + 1) _ _ (Nat.lt_succ_self i) hx hx1
      | none =>
          have hp1 : prevValid xs (i + 1) = some (i, a) := by
            rw [prevValid_succ_of_invalid xs i hx1]
            exact prevValid_of_valid xs i a hx
          cases hn : nextValid xs (i + 1 + 1) with
          | none =>
              rw [interpAt_missing_tail xs (i + 1) i a hx1 hp1 hn] at hw'
              injection hw' with hw'
              subst hw'
              exact le_refl _
          | some kb =>
              obtain ⟨k, b⟩ := kb
              obtain ⟨hk2, hkv⟩ := nextValid_spec xs (i + 1 + 1) k b hn
              rw [interpAt_missing_interior xs (i + 1) i a k b hx1 hp1 hn] at hw'
              injection hw' with hw'
              subst hw'
              have hab : a ≤ b := hmono i k a b (by omega) hx hkv
              have hkpos : (0 : ℚ) < ((k - i : ℕ) : ℚ) := by
                have h1 : 0 < k - i := by omega
                exact_mod_cast h1
              have hnn : (0 : ℚ) ≤ (b - a) * ((i + 1 - i : ℕ) : ℚ) / ((k - i : ℕ) : ℚ) :=
                div_nonneg (mul_nonneg (by linarith) (Nat.cast_nonneg _)) (le_of_lt hkpos)
              linarith
  | none =>
      obtain ⟨j, a, hp⟩ := prevValid_isSome xs v₀ h0 i
      obtain ⟨hji, hjv⟩ := prevValid_spec xs i j a hp
      cases hx1 : xs.get? (i + 1) with
      | none =>
          rw [List.get?_eq_none] at hx1
          omega
      | some o1 =>
      cases o1 with
      | some b =>
          have hn : nextValid xs (i + 1) = some (i + 1, b) := nextValid_of_valid _ _ _ hx1
          rw [interpAt_missing_interior xs i j a (i + 1) b hx hp hn] at hw
          injection hw with hw
          subst hw
          rw [interpAt_valid xs (i + 1) b hx1] at hw'
          injection hw' with hw'
          subst hw'
          have hab : a ≤ b := hmono j (i + 1) a b (by omega) hjv hx1
          have hd : (0 : ℚ) < ((i + 1 - j : ℕ) : ℚ) := by
            have h1 : 0 < i + 1 - j := by omega
            exact_mod_cast h1
          have ht1 : ((i - j : ℕ) : ℚ) ≤ ((i + 1 - j : ℕ) : ℚ) := by
            have h1 : (i - j : ℕ) ≤ (i + 1 - j : ℕ) := by omega
            exact_mod_cast h1
          have hfrac : ((i - j : ℕ) : ℚ) / ((i + 1 - j : ℕ) : ℚ) ≤ 1 :=
            (div_le_one hd).mpr ht1
          have hfrac0 : (0 : ℚ) ≤ ((i - j : ℕ) : ℚ) / ((i + 1 - j : ℕ) : ℚ) :=
            div_nonneg (Nat.cast_nonneg _) (le_of_lt hd)
          have hmt : (b - a) * (((i - j : ℕ) : ℚ) / ((i + 1 - j : ℕ) : ℚ)) ≤ b - a :=
            mul_le_of_le_one_right (by linarith) hfrac
          rw [mul_div_assoc]
          linarith
      | none =>
          have hp1 : prevValid xs (i + 1) = some (j, a) := by
            rw [prevValid_succ_of_invalid xs i hx1]
            exact hp
          have hnn : nextValid xs (i + 1) = nextValid xs (i + 1 + 1) :=
            nextValid_of_invalid xs (i + 1) hx1
          cases hn : nextValid xs (i + 1 + 1) with
          | none =>
              rw [interpAt_missing_tail xs i j a hx hp (hnn.trans hn)] at hw
              rw [interpAt_missing_tail xs (i + 1) j a hx1 hp1 hn] at hw'
              injection hw with hw
              injection hw' with hw'
              subst hw
              subst hw'
              exact le_refl _
          | some kb =>
              obtain ⟨k, b⟩ := kb
              have hnv : nextValid xs (i + 1) = some (k, b) := hnn.trans hn
              obtain ⟨hk2, hkv⟩ := nextValid_spec xs (i + 1 + 1) k b hn
              rw [interpAt_missing_interior xs i j a k b hx hp hnv] at hw
              rw [interpAt_missing_interior xs (i + 1) j a k b hx1 hp1 hn] at hw'
              injection hw with hw
              injection hw' with hw'
              subst hw
              subst hw'
              have hab : a ≤ b := hmono j k a b (by omega) hjv hkv
              have hd : (0 : ℚ) < ((k - j : ℕ) : ℚ) := by
                have h1 : 0 < k - j := by omega
                exact_mod_cast h1
              have hcc : ((i - j : ℕ) : ℚ) ≤ ((i + 1 - j : ℕ) : ℚ) := by
                have h1 : (i - j : ℕ) ≤ (i + 1 - j : ℕ) := by omega
                exact_mod_cast h1
              have hmul : (b - a) * ((i - j : ℕ) : ℚ) ≤ (b - a) * ((i + 1 - j : ℕ) : ℚ) :=
                mul_le_mul_of_nonneg_left hcc (by linarith)
              have hdiv := (div_le_div_right hd).mpr hmul
              linarith

/-! ### Assembling the repaired column -/

theorem interpolateCol_length (xs : List (Option ℚ)) :
    (interpolateCol xs).length = xs.length := by
  simp [interpolateCol]

theorem interpolateCol_get (xs : List (Option ℚ)) (i : Nat) (hi : i < xs.length) :
    (interpolateCol xs).get? i = some (interpAt xs i) := by
  simp [interpolateCol, List.get?_eq_getElem?, List.getElem?_map, List.getElem?_range, hi]

theorem toInt64_map_some (l : List ℤ) : toInt64 (l.map some) = Except.ok l := by
  induction l with
  | nil => rfl
  | cons z t ih => simp [toInt64, ih, Except.map]

theorem toInt64_ok (zs : List (Option ℤ)) (ys : List ℤ)
    (h : toInt64 zs = Except.ok ys) : zs = ys.map some := by
  induction zs generalizing ys with
  | nil =>
      simp only [toInt64, Except.ok.injEq] at h
      subst h
      rfl
  | cons o t ih =>
      cases o with
      | none => simp [toInt64] at h
      | some z =>
          simp only [toInt64] at h
          cases ht : toInt64 t with
          | error e => rw [ht] at h; simp [Except.map] at h
          | ok ys' =>
              rw [ht] at h
              simp only [Except.map, Except.ok.injEq] at h
              subst h
              rw [ih ys' ht]
              rfl

theorem fix_col_ok_core (xs : List (Option ℚ)) (v₀ : ℚ)
    (h0m : (maskedCol xs).get? 0 = some (some v₀)) :
    ∃ ys, fix_col xs = Except.ok ys ∧ List.Chain' (· ≤ ·) ys ∧
      ∀ l w, l < xs.length → interpAt (maskedCol xs) l = some w →
        ys.get? l = some (roundHalfEven w) := by
  set ms := maskedCol xs with hms
  have hlen : ms.length = xs.length := maskedFrom_length xs none
  have hmono : ∀ j k a b, j < k → ms.get? j = some (some a) →
      ms.get? k = some (some b) → a ≤ b := by
    intro j k a b hjk hja hkb
    obtain ⟨hk1, _, hk3⟩ := maskedFrom_get_valid xs none k b hkb
    obtain ⟨hj1, _, _⟩ := maskedFrom_get_valid xs none j a hja
    exact hk3 j a hjk hj1
  have htot : ∀ i, i < ms.length → ∃ w, interpAt ms i = some w :=
    fun i hi => interpAt_total ms v₀ h0m i hi
  have hW : ∀ i, i < ms.length → interpAt ms i = some ((interpAt ms i).getD 0) := by
    intro i hi
    obtain ⟨w, hw⟩ := htot i hi
    rw [hw]
    rfl
  refine ⟨(List.range ms.length).map (fun i => roundHalfEven ((interpAt ms i).getD 0)),
    ?_, ?_, ?_⟩
  · unfold fix_col
    rw [← hms]
    have h1 : interpolateCol ms =
        (List.range ms.length).map (fun i => some ((interpAt ms i).getD 0)) := by
      unfold interpolateCol
      apply List.map_congr_left
      intro i hi
      rw [List.mem_range] at hi
      exact hW i hi
    rw [h1, List.map_map]
    rw [show ((List.range ms.length).map
          (Option.map roundHalfEven ∘ fun i => some ((interpAt ms i).getD 0))) =
        ((List.range ms.length).map
          fun i => roundHalfEven ((interpAt ms i).getD 0)).map some by
      rw [List.map_map]
      rfl]
    exact toInt64_map_some _
  · rw [List.chain'_map]
    cases hn : ms.length with
    | zero => simp
    | succ m =>
        rw [List.chain'_range_succ]
        intro i him
        apply roundHalfEven_mono
        refine interpAt_adjacent_le ms hmono v₀ h0m i ?_
          ((interpAt ms i).getD 0) ((interpAt ms (i + 1)).getD 0)
          (hW i ?_) (hW (i + 1) ?_) <;> omega
  · intro l w hl hw
    have hlm : l < ms.length := by omega
    have hgd : (interpAt ms l).getD 0 = w := by
      rw [hw]
      rfl
    simp [List.get?_eq_getElem?, List.getElem?_map, List.getElem?_range, hlm, hgd]

theorem mapExcept_ok_of_all {α β ε : Type} (f : α → Except ε β)
    (P : β → Prop) (l : List α)
    (h : ∀ x ∈ l, ∃ y, f x = Except.ok y ∧ P y) :
    ∃ out, mapExcept f l = Except.ok out ∧ ∀ y ∈ out, P y := by
  induction l with
  | nil => exact ⟨[], rfl, by simp⟩
  | cons x t ih =>
      obtain ⟨y, hy, hPy⟩ := h x (List.mem_cons_self x t)
      obtain ⟨out, hout, hP⟩ := ih (fun z hz => h z (List.mem_cons_of_mem _ hz))
      refine ⟨y :: out, ?_, ?_⟩
      · simp [mapExcept, hy, hout]
      · intro z hz
        rcases List.mem_cons.mp hz with rfl | hz
        · exact hPy
        · exact hP z hz

/-- C1: on a series whose every column starts with a valid value, the
monotonicity repair succeeds and every column of the output is
non-decreasing along the date axis. -/
theorem fix_bad_data_monotone (df : List (List (Option ℚ)))
    (h : ∀ col ∈ df, ∃ v : ℚ, col.get? 0 = some (some v)) :
    ∃ out, fix_bad_data df = Except.ok out ∧ ∀ c ∈ out, List.Chain' (· ≤ ·) c := by
  apply mapExcept_ok_of_all fix_col (List.Chain' (· ≤ ·)) df
  intro col hcol
  obtain ⟨v, hv⟩ := h col hcol
  have h0m : (maskedCol col).get? 0 = some (some v) := by
    rw [maskedCol_head]
    exact hv
  obtain ⟨ys, hok, hch, _⟩ := fix_col_ok_core col v h0m
  exact ⟨ys, hok, hch⟩

theorem fix_bad_data_monotone_witness :
    (∀ col ∈ [[some (1 : ℚ), some 5, some 2, none]], ∃ v : ℚ, col.get? 0 = some (some v)) ∧
    ∃ out, fix_bad_data [[some (1 : ℚ), some 5, some 2, none]] = Except.ok out ∧
      ∀ c ∈ out, List.Chain' (· ≤ ·) c := by
  have hh : ∀ col ∈ [[some (1 : ℚ), some 5, some 2, none]],
      ∃ v : ℚ, col.get? 0 = some (some v) := by
    intro col hcol
    rw [List.mem_singleton] at hcol
    subst hcol
    exact ⟨1, rfl⟩
  exact ⟨hh, fix_bad_data_monotone _ hh⟩

/-! ### Idempotence lemmas -/

theorem maskedFrom_sorted (l : List ℚ) (hc : List.Chain' (· ≤ ·) l) :
    ∀ acc : Option ℚ, (∀ a x, acc = some a → l.head? = some x → a ≤ x) →
    maskedFrom acc (l.map some) = l.map some := by
  induction l with
  | nil => intro acc _; simp [maskedFrom_nil]
  | cons v t ih =>
      intro acc hacc
      have hvt : ∀ x, t.head? = some x → v ≤ x := by
        intro x hx
        refine (List.chain'_cons'.mp hc).1 x ?_
        rw [hx]
        rfl
      have htail : List.Chain' (· ≤ ·) t := (List.chain'_cons'.mp hc).2
      have hrec : maskedFrom (some v) (t.map some) = t.map some := by
        apply ih htail (some v)
        intro a x ha hx
        injection ha with ha
        subst ha
        exact hvt x hx
      cases acc with
      | none =>
          rw [List.map_cons, maskedFrom_cons_some_none, hrec]
      | some a0 =>
          have hav : a0 ≤ v := hacc a0 v rfl rfl
          rw [List.map_cons, maskedFrom_cons_some_some, max_eq_right hav,
            if_neg (lt_irrefl v), hrec]

theorem interpolateCol_map_some (l : List ℚ) :
    interpolateCol (l.map some) = l.map some := by
  apply List.ext_get?
  intro i
  by_cases hi : i < l.length
  · have hv : (l.map some).get? i = some (some (l.get ⟨i, hi⟩)) := by
      rw [List.get?_eq_getElem?, List.getElem?_map]
      simp [List.getElem?_eq_getElem hi]
    rw [interpolateCol_get _ i (by simpa using hi), interpAt_valid _ i _ hv, hv]
  · have h1 : (interpolateCol (l.map some)).get? i = none := by
      rw [List.get?_eq_none, interpolateCol_length]
      simpa using hi
    have h2 : (l.map some).get? i = none := by
      rw [List.get?_eq_none]
      simpa using hi
    rw [h1, h2]

theorem fix_col_map_intCast (ys : List ℤ) (hc : List.Chain' (· ≤ ·) ys) :
    fix_col (ys.map fun z : ℤ => some (z : ℚ)) = Except.ok ys := by
  have hmap : (ys.map fun z : ℤ => some (z : ℚ)) = (ys.map fun z : ℤ => (z : ℚ)).map some := by
    rw [List.map_map]
    rfl
  have hcq : List.Chain' (· ≤ ·) (ys.map fun z : ℤ => (z : ℚ)) := by
    rw [List.chain'_map]
    exact hc.imp fun a b h => by exact_mod_cast h
  have hmask : maskedCol ((ys.map fun z : ℤ => (z : ℚ)).map some) =
      (ys.map fun z : ℤ => (z : ℚ)).map some := by
    apply maskedFrom_sorted _ hcq none
    intro a x ha _
    exact Option.noConfusion ha
  unfold fix_col
  rw [hmap]
  show toInt64 ((interpolateCol (maskedCol ((ys.map fun z : ℤ => (z : ℚ)).map some))).map
    (Option.map roundHalfEven)) = Except.ok ys
  rw [hmask, interpolateCol_map_some, List.map_map]
  have hcomp : ((ys.map fun z : ℤ => (z : ℚ)).map (Option.map roundHalfEven ∘ some)) =
      ((ys.map fun z : ℤ => (z : ℚ)).map fun q => roundHalfEven q).map some := by
    simp only [List.map_map]
    rfl
  rw [hcomp, toInt64_map_some]
  have hid : ((ys.map fun z : ℤ => (z : ℚ)).map fun q => roundHalfEven q) = ys := by
    rw [List.map_map]
    calc ys.map ((fun q => roundHalfEven q) ∘ fun z : ℤ => (z : ℚ))
        = ys.map id := List.map_congr_left fun z _ => roundHalfEven_intCast z
      _ = ys := List.map_id ys
  rw [hid]

theorem fix_col_ok_chain (xs : List (Option ℚ)) (ys : List ℤ)
    (h : fix_col xs = Except.ok ys) : List.Chain' (· ≤ ·) ys := by
  cases h0 : (maskedCol xs).get? 0 with
  | none =>
      rw [List.get?_eq_none] at h0
      have hxs : xs.length = 0 := by
        have hmc : (maskedCol xs).length = xs.length := maskedFrom_length xs none
        omega
      have : xs = [] := List.length_eq_zero.mp hxs
      subst this
      have hok : fix_col ([] : List (Option ℚ)) = Except.ok [] := rfl
      rw [hok] at h
      injection h with h
      subst h
      exact List.chain'_nil
  | some o =>
      have h0len : 0 < (maskedCol xs).length := by
        by_contra hle
        rw [List.get?_eq_none.mpr (by omega)] at h0
        exact Option.noConfusion h0
      cases o with
      | some v₀ =>
          obtain ⟨ys', hok', hch', _⟩ := fix_col_ok_core xs v₀ h0
          rw [hok'] at h
          injection h with h
          subst h
          exact hch'
      | none =>
          exfalso
          have hprev : prevValid (maskedCol xs) 0 = none := by
            rw [List.get?_eq_getElem? ] at h0
            simp [prevValid, h0]
          have hint : interpAt (maskedCol xs) 0 = none :=
            interpAt_missing_noprev _ 0 h0 hprev
          have hget : ((interpolateCol (maskedCol xs)).map
              (Option.map roundHalfEven)).get? 0 = some none := by
            rw [List.get?_eq_getElem?, List.getElem?_map,
              ← List.get?_eq_getElem?, interpolateCol_get _ 0 h0len, hint]
            rfl
          have hzs := toInt64_ok _ ys h
          rw [hzs] at hget
          rw [List.get?_eq_getElem?, List.getElem?_map] at hget
          cases hy : ys[0]? with
          | none => rw [hy] at hget; exact Option.noConfusion hget
          | some y =>
              rw [hy] at hget
              simp at hget

theorem mapExcept_ok_elim {α β ε : Type} (f : α → Except ε β) (l : List α)
    (out : List β) (h : mapExcept f l = Except.ok out) :
    ∀ y ∈ out, ∃ x ∈ l, f x = Except.ok y := by
  induction l generalizing out with
  | nil =>
      simp only [mapExcept, Except.ok.injEq] at h
      subst h
      intro y hy
      simp at hy
  | cons x t ih =>
      simp only [mapExcept] at h
      cases hx : f x with
      | error e => rw [hx] at h; exact Except.noConfusion h
      | ok y0 =>
          rw [hx] at h
          cases ht : mapExcept f t with
          | error e => rw [ht] at h; exact Except.noConfusion h
          | ok out' =>
              rw [ht] at h
              injection h with h
              subst h
              intro y hy
              rcases List.mem_cons.mp hy with rfl | hy
              · exact ⟨x, List.mem_cons_self x t, hx⟩
              · obtain ⟨x', hx', hfx'⟩ := ih out' ht y hy
                exact ⟨x', List.mem_cons_of_mem _ hx', hfx'⟩

theorem mapExcept_map_ok {α β ε : Type} (f : α → Except ε β) (g : β → α)
    (out : List β) (h : ∀ y ∈ out, f (g y) = Except.ok y) :
    mapExcept f (out.map g) = Except.ok out := by
  induction out with
  | nil => rfl
  | cons y t ih =>
      have h1 := h y (List.mem_cons_self y t)
      have h2 := ih fun z hz => h z (List.mem_cons_of_mem _ hz)
      simp [mapExcept, h1, h2]

/-- C2: the monotonicity repair is idempotent — whenever `fix_bad_data`
succeeds, running it again on its own output returns that output
unchanged. -/
theorem fix_bad_data_idempotent (df : List (List (Option ℚ))) (out : List (List ℤ))
    (h : fix_bad_data df = Except.ok out) :
    fix_bad_data (out.map (List.map fun z : ℤ => some (z : ℚ))) = Except.ok out := by
  apply mapExcept_map_ok
  intro ys hys
  obtain ⟨xs, _, hok⟩ := mapExcept_ok_elim fix_col df out h ys hys
  exact fix_col_map_intCast ys (fix_col_ok_chain xs ys hok)

theorem fix_bad_data_idempotent_witness :
    fix_bad_data [[some (1 : ℚ), some 5, some 2, none]] = Except.ok [[1, 5, 5, 5]] ∧
    fix_bad_data (([[1, 5, 5, 5]] : List (List ℤ)).map (List.map fun z : ℤ => some (z : ℚ))) =
      Except.ok [[1, 5, 5, 5]] :=
  ⟨by decide,
    fix_bad_data_idempotent [[some (1 : ℚ), some 5, some 2, none]] [[1, 5, 5, 5]] (by decide)⟩

/-! ### C9 -/

/-- C9 counterexample: the column `[NaN, 5, NaN]` has a last valid
value (the surviving `5` at position 1) followed by a trailing missing
run, yet `fix_bad_data` raises — its leading NaN survives interpolation
and the integer coercion fails — so the trailing run is not filled with
the last valid value (no column is returned at all). -/
theorem fix_col_trailing_fill_cex :
    ((maskedCol [none, some (5 : ℚ), none]).get? 1 = some (some (5 : ℚ))) ∧
    ((maskedCol [none, some (5 : ℚ), none]).get? 2 = some none) ∧
    fix_bad_data [[none, some (5 : ℚ), none]] = Except.error convErr := by decide

/-- C9 amended: inside the repair of one column that starts with a
valid cell (so the repair returns at all), a run of flagged-or-missing
cells at the end of the column (no valid cell after it) is filled with
the column's last valid value: every output cell from that last valid
position onward equals its rounded value, with no upward
extrapolation. -/
theorem fix_col_trailing_fill (xs : List (Option ℚ)) (v₀ v : ℚ) (k : Nat)
    (h0 : xs.get? 0 = some (some v₀))
    (hk : (maskedCol xs).get? k = some (some v))
    (hafter : ∀ l, k < l → l < xs.length → (maskedCol xs).get? l = some none) :
    ∃ ys, fix_col xs = Except.ok ys ∧
      ∀ l, k ≤ l → l < xs.length → ys.get? l = some (roundHalfEven v) := by
  have h0m : (maskedCol xs).get? 0 = some (some v₀) := by
    rw [maskedCol_head]
    exact h0
  obtain ⟨ys, hok, _, hget⟩ := fix_col_ok_core xs v₀ h0m
  refine ⟨ys, hok, ?_⟩
  intro l hkl hl
  have hmslen : (maskedCol xs).length = xs.length := maskedFrom_length xs none
  rcases Nat.eq_or_lt_of_le hkl with rfl | hlt
  · exact hget _ v hl (interpAt_valid _ _ v hk)
  · have hxl : (maskedCol xs).get? l = some none := hafter l hlt hl
    have hprev : prevValid (maskedCol xs) l = some (k, v) := by
      apply prevValid_of_missing_run (maskedCol xs) k v hk l (le_of_lt hlt)
      intro m h1 h2
      exact hafter m h1 (by omega)
    have hnext : nextValid (maskedCol xs) (l + 1) = none := by
      apply nextValid_none_of_all_missing
      intro m hm1 hm2
      exact hafter m (by omega) (by omega)
    exact hget l v hl (interpAt_missing_tail _ l k v hxl hprev hnext)

theorem fix_col_trailing_fill_witness :
    ([some (1 : ℚ), some 5, some 2, none].get? 0 = some (some (1 : ℚ))) ∧
    ((maskedCol [some (1 : ℚ), some 5, some 2, none]).get? 1 = some (some (5 : ℚ))) ∧
    (∀ l, 1 < l → l < 4 →
      (maskedCol [some (1 : ℚ), some 5, some 2, none]).get? l = some none) ∧
    ∃ ys, fix_col [some (1 : ℚ), some 5, some 2, none] = Except.ok ys ∧
      ∀ l, 1 ≤ l → l < 4 → ys.get? l = some (roundHalfEven 5) := by
  have hafter : ∀ l, 1 < l → l < 4 →
      (maskedCol [some (1 : ℚ), some 5, some 2, none]).get? l = some none := by
    intro l h1 h2
    have hl : l = 2 ∨ l = 3 := by omega
    rcases hl with rfl | rfl <;> decide
  exact ⟨by decide, by decide, hafter,
    fix_col_trailing_fill [some (1 : ℚ), some 5, some 2, none] 1 5 1
      (by decide) (by decide) hafter⟩

/-! ### C3 -/

/-- C3 counterexample: a series with a single, entirely missing column
makes `fix_bad_data` raise the integer-coercion error rather than
return the column. -/
theorem fix_bad_data_all_missing_cex :
    fix_bad_data [[(none : Option ℚ)]] = Except.error convErr := by decide

theorem mapExcept_error_of_mem {α β ε : Type} (f : α → Except ε β) (l : List α)
    (x : α) (hx : x ∈ l) (e : ε) (hfx : f x = Except.error e) :
    ∃ e', mapExcept f l = Except.error e' := by
  induction l with
  | nil => cases hx
  | cons y t ih =>
      cases hfy : f y with
      | error e0 => exact ⟨e0, by simp [mapExcept, hfy]⟩
      | ok b =>
          rcases List.mem_cons.mp hx with rfl | hxt
          · rw [hfy] at hfx
            exact Except.noConfusion hfx
          · obtain ⟨e', he'⟩ := ih hxt
            exact ⟨e', by simp [mapExcept, hfy, he']⟩

theorem fix_col_all_missing (col : List (Option ℚ)) (hne : col ≠ [])
    (hmiss : ∀ c ∈ col, c = none) : fix_col col = Except.error convErr := by
  have hmask : maskedCol col = col := maskedFrom_all_none col hmiss none
  have h0 : col.get? 0 = some none := by
    cases col with
    | nil => exact absurd rfl hne
    | cons c t =>
        have hc : c = none := hmiss c (List.mem_cons_self c t)
        simp [hc]
  have h0len : 0 < col.length := by
    cases col with
    | nil => exact absurd rfl hne
    | cons c t => simp
  have hprev : prevValid col 0 = none := by
    rw [List.get?_eq_getElem? ] at h0
    simp [prevValid, h0]
  have h0' : col.get? 0 = some none := by
    rw [List.get?_eq_getElem? ]
    rw [List.get?_eq_getElem? ] at h0
    exact h0
  have hint : interpAt col 0 = none := interpAt_missing_noprev col 0 h0' hprev
  unfold fix_col
  rw [hmask]
  cases hr : (interpolateCol col).map (Option.map roundHalfEven) with
  | nil =>
      exfalso
      have hlr : ((interpolateCol col).map (Option.map roundHalfEven)).length = col.length := by
        simp [interpolateCol_length]
      rw [hr] at hlr
      simp at hlr
      omega
  | cons c rest =>
      have hg : ((interpolateCol col).map (Option.map roundHalfEven)).get? 0 = some none := by
        rw [List.get?_eq_getElem?, List.getElem?_map, ← List.get?_eq_getElem?,
          interpolateCol_get col 0 h0len, hint]
        rfl
      rw [hr] at hg
      simp only [List.get?_cons_zero, Option.some.injEq] at hg
      rw [hg]
      rfl

/-- C3 amended: if some column of the input series is nonempty and
entirely missing, `fix_bad_data` raises (the `astype('int64')` coercion
fails on the still-missing cells) instead of returning the series with
that column left missing or zero. -/
theorem fix_bad_data_all_missing_raises (df : List (List (Option ℚ)))
    (col : List (Option ℚ)) (hmem : col ∈ df) (hne : col ≠ [])
    (hmiss : ∀ c ∈ col, c = none) :
    ∃ e, fix_bad_data df = Except.error e :=
  mapExcept_error_of_mem fix_col df col hmem convErr (fix_col_all_missing col hne hmiss)

theorem fix_bad_data_all_missing_raises_witness :
    ([(none : Option ℚ)] ∈ [[(none : Option ℚ)]]) ∧ ([(none : Option ℚ)] ≠ []) ∧
    (∀ c ∈ [(none : Option ℚ)], c = none) ∧
    ∃ e, fix_bad_data [[(none : Option ℚ)]] = Except.error e :=
  ⟨by decide, by decide, by decide,
    fix_bad_data_all_missing_raises [[(none : Option ℚ)]] [(none : Option ℚ)]
      (by decide) (by decide) (by decide)⟩
